import Mathlib

/-!
Shallow embedding of the fakegres-fdb SQL-to-KV engine.

The Go program stores all state in FoundationDB as tuple-packed keys under
two directories, `catalog` and `data`.  We model the store as an association
list of (key, value) pairs where a `Set` conses a new binding (the most
recent binding wins on lookup), which matches last-write-wins semantics of
sequential `tr.Set` calls inside one transaction.  Range scans are modelled
as filtering the live bindings of the relevant subspace and sorting them in
tuple order, which is what FoundationDB's lexicographic key order provides
for tuple-packed keys.
-/

/-- Value bytes stored in the KV store.  The Go code only ever stores UTF-8
text (column type tokens, string constants, JSON-encoded integers), so we
model byte strings as `String`. -/
abbrev Bytes := String

/-- The keys the engine ever writes, one constructor per tuple shape:
`catalog/table/(name)` (existence marker), `catalog/table/(name, col)`
(column definition), and `data/table_data/(name, layout, x, y)` (data cell,
where layout "r" has x = row id, y = column name and layout "c" has
x = column name, y = row id). -/
inductive FdbKey
  | tableMarker (table : String)
  | columnDef (table col : String)
  | dataCell (table layout x y : String)
  deriving DecidableEq, Repr

/-- The KV store: latest bindings first. -/
abbrev KVStore := List (FdbKey × Bytes)

/-- `tr.Set(k, v)`. -/
def kvSet (s : KVStore) (k : FdbKey) (v : Bytes) : KVStore := (k, v) :: s

/-- `tr.Get(k)`: the most recent binding for `k`, if any. -/
def kvGet : KVStore → FdbKey → Option Bytes
  | [], _ => none
  | e :: rest, k => if e.1 = k then some e.2 else kvGet rest k

/-- `tr.Clear(k)`: drop every binding of `k`. -/
def kvClear : KVStore → FdbKey → KVStore
  | [], _ => []
  | e :: rest, k => if e.1 = k then kvClear rest k else e :: kvClear rest k

/-- Apply a list of `Set` operations in order. -/
def applyWrites (s : KVStore) (ws : List (FdbKey × Bytes)) : KVStore :=
  ws.foldl (fun acc w => kvSet acc w.1 w.2) s

/-- The last write to `k` in a write list, if any (later writes win). -/
def writesLookup (ws : List (FdbKey × Bytes)) (k : FdbKey) : Option Bytes :=
  ws.foldl (fun acc w => if w.1 == k then some w.2 else acc) none

/-- The distinct keys currently present in the store. -/
def storeKeys (s : KVStore) : List FdbKey := (s.map (fun e => e.1)).dedup

/-- Lexicographic order on character lists by code point; UTF-8 byte
order coincides with code-point order. -/
def charListLe : List Char → List Char → Bool
  | [], _ => true
  | _ :: _, [] => false
  | a :: as, b :: bs =>
    if a = b then charListLe as bs
    else decide (a.val.toNat < b.val.toNat)

/-- Boolean order on strings, mirroring byte order of UTF-8 keys. -/
def strLe (a b : String) : Bool := charListLe a.data b.data

/-- Lexicographic order on string pairs (tuple order of packed keys). -/
def pairLe (p q : String × String) : Bool :=
  if p.1 == q.1 then strLe p.2 q.2 else strLe p.1 q.1

/-- Insert into a sorted list. -/
def insertSorted (le : α → α → Bool) (x : α) : List α → List α
  | [] => [x]
  | y :: ys => if le x y then x :: y :: ys else y :: insertSorted le x ys

/-- Insertion sort, used to model the sorted order of a range scan. -/
def sortByLe (le : α → α → Bool) (l : List α) : List α :=
  l.foldr (insertSorted le) []

/-- `getTableDefinition`'s range scan of `catalog/table/(name)/…`: all live
column-definition entries of `name`, in column-name order.  The existence
marker packs to the subspace prefix itself and is outside the scanned range,
so only two-element tuples `(name, col)` appear. -/
def catalogScan (s : KVStore) (name : String) : List (String × Bytes) :=
  let cols := (storeKeys s).filterMap (fun k =>
    match k with
    | .columnDef t c => if t == name then some c else none
    | _ => none)
  (sortByLe strLe cols).map (fun c => (c, (kvGet s (.columnDef name c)).getD ""))

structure tableDefinition where
  Name : String
  ColumnNames : List String
  ColumnTypes : List String
  deriving DecidableEq, Repr

/-- Errors the engine can produce (each corresponds to a `fmt.Errorf` in the
source; there is no table-unknown error anywhere in the program). -/
inductive PgError
  | unknownField (f : String)
  | unknownValueType
  deriving DecidableEq, Repr

/-- The table definition assembled by `getTableDefinition`'s scan loop. -/
def scannedTableDef (s : KVStore) (name : String) : tableDefinition :=
  let entries := catalogScan s name
  ⟨name, entries.map (fun e => e.1), entries.map (fun e => e.2)⟩

/-- `getTableDefinition`: one read transaction range-scanning the table's
catalog subspace.  The only error path in the source is a failed read
transaction (modelled as never failing); an empty scan is NOT an error —
the function returns a definition with empty column lists (the source
carries a `TODO: check if table exists`). -/
def getTableDefinition (s : KVStore) (name : String) :
    Except PgError tableDefinition :=
  .ok (scannedTableDef s name)

/-- A parsed column definition: `cd.Colname` and `cd.TypeName.Names`. -/
structure ColumnDef where
  colname : String
  typeNames : List String
  deriving DecidableEq, Repr

/-- A parsed `CREATE TABLE` statement. -/
structure CreateStmt where
  relname : String
  tableElts : List ColumnDef
  deriving DecidableEq, Repr

/-- The column type token built by `executeCreate`'s inner loop:
start from the empty string and for each name component append a `.`
separator first unless the accumulator is still empty. -/
def columnTypeToken (names : List String) : String :=
  names.foldl (fun acc n => (if acc != "" then acc ++ "." else acc) ++ n) ""

/-- `executeCreate`: one transaction.  If the existence marker is present,
log and return with no writes; otherwise write the marker with empty value,
then one column-definition key per declared column in declaration order.
Returns the post state together with the ordered list of `Set` calls. -/
def executeCreate (s : KVStore) (stmt : CreateStmt) :
    KVStore × List (FdbKey × Bytes) :=
  if (kvGet s (.tableMarker stmt.relname)).isSome then (s, [])
  else
    stmt.tableElts.foldl
      (fun acc c =>
        let tok := columnTypeToken c.typeNames
        (kvSet acc.1 (.columnDef stmt.relname c.colname) tok,
         acc.2 ++ [(.columnDef stmt.relname c.colname, tok)]))
      (kvSet s (.tableMarker stmt.relname) "",
       [(.tableMarker stmt.relname, "")])

/-- An `INSERT` constant: `AConst` with a `String_` or `Integer` value, or
any other value node (which the source rejects with "unknown value type"). -/
inductive PgConst
  | strC (s : String)
  | intC (n : Int)
  | other
  deriving DecidableEq, Repr

/-- The bytes `executeInsert` stores for a constant: the raw string for a
string constant, `json.Marshal` of the integer (its decimal text) for an
integer constant.  `other` is never encoded by the source (it errors first);
the default here is irrelevant junk. -/
def encodeConst : PgConst → Bytes
  | .strC s => s
  | .intC n => toString n
  | .other => ""

/-- A parsed `INSERT` statement: relation name and the `VALUES` lists. -/
structure InsertStmt where
  relname : String
  valuesLists : List (List PgConst)
  deriving DecidableEq, Repr

/-- The per-tuple write loop of `executeInsert`: walk the value list with a
running `columnIndex`, clamped so it only advances while strictly below
`len(ColumnNames) - 1`; for each constant emit the column-layout `Set`
followed by the row-layout `Set`, both with the same encoded bytes; fail on
any other constant kind. -/
def insertTuple (t : String) (cols : List String) (id : String) :
    List PgConst → Nat → Except PgError (List (FdbKey × Bytes))
  | [], _ => .ok []
  | v :: vs, ci =>
    let nextCi := if ci < cols.length - 1 then ci + 1 else ci
    match v with
    | .strC str =>
      (insertTuple t cols id vs nextCi).map (fun ws =>
        (.dataCell t "c" (cols.getD ci "") id, str) ::
        (.dataCell t "r" id (cols.getD ci ""), str) :: ws)
    | .intC n =>
      (insertTuple t cols id vs nextCi).map (fun ws =>
        (.dataCell t "c" (cols.getD ci "") id, toString n) ::
        (.dataCell t "r" id (cols.getD ci ""), toString n) :: ws)
    | .other => .error .unknownValueType

/-- All tuples of one `INSERT`, each paired with its freshly generated row
id (the UUIDs are modelled as an input list, one per tuple). -/
def insertTuples (t : String) (cols : List String) :
    List (List PgConst × String) → Except PgError (List (FdbKey × Bytes))
  | [] => .ok []
  | (vs, id) :: rest => do
    let w ← insertTuple t cols id vs 0
    let wr ← insertTuples t cols rest
    return w ++ wr

/-- `executeInsert`: resolve the table definition, then one transaction.
If the existence marker is absent the call is a logged no-op that succeeds.
Otherwise perform all cell writes; an unknown value type aborts the
transaction, so no write of the statement is applied and the error is
returned (wrapped by the caller). -/
def executeInsert (s : KVStore) (stmt : InsertStmt) (ids : List String) :
    KVStore × Option PgError :=
  match getTableDefinition s stmt.relname with
  | .error e => (s, some e)
  | .ok tbl =>
    if (kvGet s (.tableMarker stmt.relname)).isNone then (s, none)
    else
      match insertTuples stmt.relname tbl.ColumnNames
          (stmt.valuesLists.zip ids) with
      | .ok ws => (applyWrites s ws, none)
      | .error e => (s, some e)

/-- A parsed `DELETE` statement (no WHERE clause is supported). -/
structure DeleteStmt where
  relname : String
  deriving DecidableEq, Repr

/-- The keys returned by `executeDelete`'s range scan of the whole
`data/table_data` subspace: every live data cell of every table. -/
def tableDataKeys (s : KVStore) : List FdbKey :=
  (storeKeys s).filter (fun k =>
    match k with
    | .dataCell _ _ _ _ => true
    | _ => false)

/-- `executeDelete`: one transaction.  If the target table's existence
marker is absent, a logged no-op.  Otherwise clear every key returned by a
range scan of the entire `data/table_data` subspace (all tables). -/
def executeDelete (s : KVStore) (stmt : DeleteStmt) : KVStore :=
  if (kvGet s (.tableMarker stmt.relname)).isNone then s
  else (tableDataKeys s).foldl kvClear s

/-- The in-memory result set: field names, field type tokens, rows. -/
structure pgResult where
  fieldNames : List String
  fieldTypes : List String
  rows : List (List Bytes)
  deriving DecidableEq, Repr

/-- A parsed `SELECT`: the single FROM relation and the bare column
references of the target list. -/
structure SelectStmt where
  fromTable : String
  targets : List String
  deriving DecidableEq, Repr

/-- The field-type lookup loop of both SELECT paths: scan the whole column
list and keep the type of the last matching column (starting from ""). -/
def lookupFieldType (tbl : tableDefinition) (fieldName : String) : String :=
  (tbl.ColumnNames.zip tbl.ColumnTypes).foldl
    (fun acc e => if e.1 == fieldName then e.2 else acc) ""

/-- The target-resolution loop: resolve each target's field type in order,
failing with `unknown field` at the first target whose type stays "". -/
def resolveFieldTypes (tbl : tableDefinition) :
    List String → Except PgError (List String)
  | [] => .ok []
  | f :: fs =>
    let ft := lookupFieldType tbl f
    if ft == "" then .error (.unknownField f)
    else (resolveFieldTypes tbl fs).map (fun rest => ft :: rest)

/-- The row-layout scan of `executeSelect`: live cells under
`(table, "r")…` as `((row_id, column_name), value)`, in tuple order. -/
def rowLayoutScan (s : KVStore) (tname : String) :
    List ((String × String) × Bytes) :=
  let keys := (storeKeys s).filterMap (fun k =>
    match k with
    | .dataCell t l x y => if t == tname && l == "r" then some (x, y) else none
    | _ => none)
  (sortByLe pairLe keys).map (fun p =>
    (p, (kvGet s (.dataCell tname "r" p.1 p.2)).getD ""))

/-- The column-layout scan of `executeSelectColumnar`: live cells under
`(table, "c")…` as `((column_name, row_id), value)`, in tuple order. -/
def colLayoutScan (s : KVStore) (tname : String) :
    List ((String × String) × Bytes) :=
  let keys := (storeKeys s).filterMap (fun k =>
    match k with
    | .dataCell t l x y => if t == tname && l == "c" then some (x, y) else none
    | _ => none)
  (sortByLe pairLe keys).map (fun p =>
    (p, (kvGet s (.dataCell tname "c" p.1 p.2)).getD ""))

/-- The mutable state of `executeSelect`'s scan loop. -/
structure RowScanState where
  targetRows : List (List Bytes)
  rowIndex : Nat
  columnOrder : List String
  deriving DecidableEq, Repr

/-- First statement of `executeSelect`'s loop body: grow `columnOrder`
while it is shorter than `len(results.fieldNames)`. -/
def colOrderUpd (numFields : Nat) (st : RowScanState) (colName : String) :
    RowScanState :=
  if st.columnOrder.length < numFields then
    { st with columnOrder := st.columnOrder ++ [colName] }
  else st

/-- Second statement of the loop body: start a new row when the row under
construction holds exactly `len(results.fieldNames)` values. -/
def rowBreakUpd (numFields : Nat) (st : RowScanState) : RowScanState :=
  if (st.targetRows.getD st.rowIndex []).length == numFields then
    { st with targetRows := st.targetRows ++ [[]],
              rowIndex := st.rowIndex + 1 }
  else st

/-- Last statement of the loop body: append the cell value to the row
under construction. -/
def appendVal (st : RowScanState) (v : Bytes) : RowScanState :=
  { st with targetRows :=
      (st.targetRows.set st.rowIndex
        ((st.targetRows.getD st.rowIndex []) ++ [v])) }

/-- One iteration of `executeSelect`'s scan loop, with `numFields` the
length of `results.fieldNames` (the target list) at that point. -/
def rowScanStep (numFields : Nat) (st : RowScanState)
    (cell : (String × String) × Bytes) : RowScanState :=
  appendVal (rowBreakUpd numFields (colOrderUpd numFields st cell.1.2))
    cell.2

/-- `executeSelect` (row-layout path).  `txFails` models the scan
transaction failing: the source discards the transaction's error
(`_, _ = pe.db.Transact(...)`) and returns the pre-allocated result with a
nil error either way. -/
def executeSelect (s : KVStore) (txFails : Bool) (stmt : SelectStmt) :
    Except PgError pgResult :=
  match getTableDefinition s stmt.fromTable with
  | .error e => .error e
  | .ok tbl =>
    match resolveFieldTypes tbl stmt.targets with
    | .error e => .error e
    | .ok fieldTypes =>
      if txFails then .ok ⟨stmt.targets, fieldTypes, []⟩
      else
        let cells := rowLayoutScan s tbl.Name
        let st := cells.foldl (rowScanStep stmt.targets.length) ⟨[[]], 0, []⟩
        .ok ⟨st.columnOrder, fieldTypes,
          (st.targetRows ++ [[]]).filter (fun r => decide (0 < r.length))⟩

/-- The mutable state of `executeSelectColumnar`'s scan loop.  `rowIndex`
is a signed integer in the source (initialised to -1). -/
structure ColScanState where
  columnOrder : List String
  targetRows : List (List Bytes)
  rowIndex : Int
  lastColumn : String
  deriving DecidableEq, Repr

/-- Append `v` to the row at (possibly negative) index `i`.  The source
indexes the slice directly and would panic out of bounds; we model
out-of-range indexing as a no-op, which agrees with the source on every
non-panicking execution. -/
def appendAt (l : List (List Bytes)) (i : Int) (v : Bytes) :
    List (List Bytes) :=
  if 0 ≤ i then l.set i.toNat ((l.getD i.toNat []) ++ [v]) else l

/-- One iteration of `executeSelectColumnar`'s scan loop: on a column-name
change reset `rowIndex`, remember the column and record it in the emitted
column order; otherwise open a new row slot; then append the value to the
row at `rowIndex` once per matching entry of the target list; finally
advance `rowIndex`. -/
def colScanStep (targets : List String) (st : ColScanState)
    (cell : (String × String) × Bytes) : ColScanState :=
  let currentColumnName := cell.1.1
  let st1 :=
    if currentColumnName != st.lastColumn then
      { st with rowIndex := 0, lastColumn := currentColumnName,
                columnOrder := st.columnOrder ++ [currentColumnName] }
    else { st with targetRows := st.targetRows ++ [[]] }
  let st2 := targets.foldl
    (fun acc t =>
      if t == currentColumnName then
        { acc with targetRows := appendAt acc.targetRows acc.rowIndex cell.2 }
      else acc) st1
  { st2 with rowIndex := st2.rowIndex + 1 }

/-- `executeSelectColumnar` (column-layout path); like `executeSelect`, the
scan transaction's error is discarded and never propagated. -/
def executeSelectColumnar (s : KVStore) (txFails : Bool)
    (stmt : SelectStmt) : Except PgError pgResult :=
  match getTableDefinition s stmt.fromTable with
  | .error e => .error e
  | .ok tbl =>
    match resolveFieldTypes tbl stmt.targets with
    | .error e => .error e
    | .ok fieldTypes =>
      if txFails then .ok ⟨stmt.targets, fieldTypes, []⟩
      else
        let cells := colLayoutScan s tbl.Name
        let st := cells.foldl (colScanStep stmt.targets) ⟨[], [[]], -1, ""⟩
        .ok ⟨st.columnOrder, fieldTypes,
          (st.targetRows ++ [[]]).filter (fun r => decide (0 < r.length))⟩

/-- A parsed top-level statement, as dispatched by `pgEngine.execute` and
`handleMessage`.  `otherStmt` stands for any statement kind whose four
getters all return nil (the dispatch loop skips it). -/
inductive Stmt
  | createS (c : CreateStmt)
  | insertS (i : InsertStmt)
  | deleteS (d : DeleteStmt)
  | selectS (s : SelectStmt)
  | otherStmt
  deriving DecidableEq, Repr

/-- `pgEngine.execute`: walk the statement list and return at the first
CREATE / INSERT / DELETE / SELECT; a SELECT's result set is dropped and only
its error kept.  Returns the post store and the error the call returns;
the create and delete paths only fail on a failed transaction, which the
model's transactions never do. -/
def pgExecute (s : KVStore) (ids : List String) :
    List Stmt → KVStore × Option PgError
  | [] => (s, none)
  | .createS c :: _ => ((executeCreate s c).1, none)
  | .insertS i :: _ => executeInsert s i ids
  | .deleteS d :: _ => (executeDelete s d, none)
  | .selectS sel :: _ =>
    match executeSelect s false sel with
    | .ok _ => (s, none)
    | .error e => (s, some e)
  | .otherStmt :: rest => pgExecute s ids rest

/-- Outcome of `pgquery.Parse` on the Query's SQL text. -/
inductive ParseOutcome
  | failed
  | parsed (stmts : List Stmt)
  deriving DecidableEq, Repr

/-- A client message as seen by `handleMessage`: a Query carrying its raw
SQL text and its parse outcome, a Terminate, or any other message kind. -/
inductive Msg
  | query (sql : String) (parse : ParseOutcome)
  | terminate
  | otherMsg
  deriving DecidableEq, Repr

/-- A protocol frame written back to the client. -/
inductive Frame
  | rowDescription (fields : List String)
  | dataRow (row : List Bytes)
  | commandComplete (tag : String)
  | readyForQuery
  deriving DecidableEq, Repr

/-- Session-level errors: each corresponds to an error `handleMessage`
returns to `handle`, which logs it and closes the connection. -/
inductive SessionError
  | parseFailed
  | tooManyStatements
  | engineError (e : PgError)
  | unexpectedMessage
  deriving DecidableEq, Repr

/-- Uppercase a character list (`strings.ToUpper`). -/
def upperChars : List Char → List Char
  | [] => []
  | c :: cs => c.toUpper :: upperChars cs

/-- The characters before the first space
(`strings.Split(s, " ")[0]`). -/
def beforeSpace : List Char → List Char
  | [] => []
  | c :: cs => if c = ' ' then [] else c :: beforeSpace cs

/-- The first space-separated token of the SQL text, uppercased
(`strings.ToUpper(strings.Split(t.String, " ")[0])`). -/
def firstToken (sql : String) : String := ⟨upperChars (beforeSpace sql.data)⟩

/-- `pgs.done`: a CommandComplete with the given tag then ReadyForQuery. -/
def doneFrames (tag : String) : List Frame :=
  [.commandComplete tag, .readyForQuery]

/-- `pgs.writePgResult`: a RowDescription, one DataRow per result row, then
`done` with tag `SELECT <row count>`. -/
def writePgResultFrames (res : pgResult) : List Frame :=
  Frame.rowDescription res.fieldNames ::
    (res.rows.map (fun r => Frame.dataRow r) ++
      doneFrames ("SELECT " ++ toString res.rows.length))

/-- What `handleMessage` produces: the frames written, the store after the
message, and the error returned to `handle` (if any). -/
structure HandleResult where
  frames : List Frame
  store : KVStore
  err : Option SessionError
  deriving DecidableEq, Repr

/-- `handleMessage`: dispatch one client message.  A failed parse and a
multi-statement Query return an error with nothing executed and nothing
written.  A SELECT statement goes through the columnar or row path per the
`--columnar` flag; its error is returned, otherwise the result frames are
written.  Any other statement goes through `pgEngine.execute`, whose error
the source DISCARDS (`pe.execute(*stmts)` with the return value unused)
before unconditionally writing `done` with tag `<TOKEN> ok`.  (On an empty
statement list the source would panic indexing `stmts[0]`; the model takes
the non-select branch there.) -/
def handleMessage (s : KVStore) (ids : List String) (columnar : Bool)
    (m : Msg) : HandleResult :=
  match m with
  | .terminate => ⟨[], s, none⟩
  | .otherMsg => ⟨[], s, some .unexpectedMessage⟩
  | .query sql parse =>
    match parse with
    | .failed => ⟨[], s, some .parseFailed⟩
    | .parsed stmts =>
      if stmts.length > 1 then ⟨[], s, some .tooManyStatements⟩
      else
        match stmts.headD .otherStmt with
        | .selectS sel =>
          match (if columnar then executeSelectColumnar s false sel
                 else executeSelect s false sel) with
          | .error e => ⟨[], s, some (.engineError e)⟩
          | .ok res => ⟨writePgResultFrames res, s, none⟩
        | _ =>
          let r := pgExecute s ids stmts
          ⟨doneFrames (firstToken sql ++ " ok"), r.1, none⟩

/-- `handle`'s receive loop over a prescribed message sequence (each Query
paired with the row ids its inserts would draw): on the first error from
`handleMessage` the error is logged and the deferred `conn.Close()` runs
(the Boolean result records that the connection was closed). -/
def handleLoop (s : KVStore) (columnar : Bool) :
    List (Msg × List String) → List Frame × KVStore × Bool
  | [] => ([], s, false)
  | (m, ids) :: rest =>
    let r := handleMessage s ids columnar m
    match r.err with
    | some _ => (r.frames, r.store, true)
    | none =>
      let next := handleLoop r.store columnar rest
      (r.frames ++ next.1, next.2.1, next.2.2)

/-!  Basic lemmas about the KV-store model.  -/

theorem kvGet_kvSet_self (s : KVStore) (k : FdbKey) (v : Bytes) :
    kvGet (kvSet s k v) k = some v := by
  simp [kvGet, kvSet]

theorem kvGet_kvSet_ne (s : KVStore) (k k' : FdbKey) (v : Bytes)
    (h : k' ≠ k) : kvGet (kvSet s k v) k' = kvGet s k' := by
  have : ¬ ((k, v).1 = k') := fun hh => h hh.symm
  simp [kvGet, kvSet, this]

theorem kvGet_kvClear_self (s : KVStore) (k : FdbKey) :
    kvGet (kvClear s k) k = none := by
  induction s with
  | nil => rfl
  | cons e rest ih =>
    by_cases he : e.1 = k
    · simpa [kvClear, he] using ih
    · simpa [kvClear, he, kvGet] using ih

theorem kvGet_kvClear_ne (s : KVStore) (k k' : FdbKey) (h : k' ≠ k) :
    kvGet (kvClear s k) k' = kvGet s k' := by
  induction s with
  | nil => rfl
  | cons e rest ih =>
    by_cases he : e.1 = k
    · have hne : ¬ (k = k') := fun hh => h hh.symm
      simpa [kvClear, he, kvGet, hne] using ih
    · by_cases he2 : e.1 = k'
      · simp [kvClear, he, kvGet, he2, h]
      · simpa [kvClear, he, kvGet, he2] using ih

theorem kvGet_eq_none_of_not_mem (s : KVStore) (k : FdbKey)
    (h : k ∉ storeKeys s) : kvGet s k = none := by
  have hm : k ∉ s.map (fun e => e.1) := by
    intro hc
    exact h (by simpa [storeKeys, List.mem_dedup] using hc)
  clear h
  induction s with
  | nil => rfl
  | cons e rest ih =>
    have he : ¬ (e.1 = k) := by
      intro hek
      exact hm (by simp [hek])
    have hm' : k ∉ rest.map (fun e => e.1) := by
      intro hc
      exact hm (by simp [List.mem_map] at hc ⊢; tauto)
    simpa [kvGet, he] using ih hm'

theorem foldl_kvClear_get (keys : List FdbKey) :
    ∀ (s : KVStore) (k : FdbKey),
      kvGet (keys.foldl kvClear s) k =
        if k ∈ keys then none else kvGet s k := by
  induction keys with
  | nil => intro s k; simp
  | cons k0 ks ih =>
    intro s k
    by_cases hk : k ∈ ks
    · simp [List.foldl_cons, ih, hk, List.mem_cons]
    · by_cases hk0 : k = k0
      · simp [List.foldl_cons, ih, hk, hk0, kvGet_kvClear_self]
      · simp [List.foldl_cons, ih, hk, hk0, kvGet_kvClear_ne _ _ _ hk0]

/-!  Small list helpers used by the scan-loop proofs.  -/

theorem getD_append_lt {α : Type} (A B : List α) (i : Nat) (d : α)
    (h : i < A.length) : (A ++ B).getD i d = A.getD i d := by
  induction A generalizing i with
  | nil => simp at h
  | cons a A' ih =>
    cases i with
    | zero => simp
    | succ i' =>
      have h' : i' < A'.length := by
        simpa using Nat.lt_of_succ_lt_succ h
      simp only [List.cons_append, List.getD_cons_succ]
      exact ih i' h'

theorem getD_append_length {α : Type} (A : List α) (b : α) (B : List α)
    (d : α) : (A ++ b :: B).getD A.length d = b := by
  induction A with
  | nil => simp
  | cons a A' ih => simpa using ih

theorem set_append_length {α : Type} (A : List α) (b x : α) (B : List α) :
    (A ++ b :: B).set A.length x = A ++ x :: B := by
  induction A with
  | nil => simp
  | cons a A' ih => simp [ih]

/-!  C1: behaviour of `getTableDefinition` on an empty catalog scan.  -/

theorem scannedTableDef_empty (s : KVStore) (name : String)
    (h : catalogScan s name = []) : scannedTableDef s name = ⟨name, [], []⟩ := by
  simp [scannedTableDef, h]

/-- C1 (counterexample): the claim says `getTableDefinition` fails with a
`TableUnknown` error when the catalog scan of the table yields no column
entries, and that a SELECT on such a table therefore fails with
`TableUnknown`.  On the empty store the scan of table `nosuch` yields no
entries, yet `getTableDefinition` SUCCEEDS, returning a definition with
empty column lists; the SELECT then fails, but with the unknown-field
error for its first target (there is no table-unknown error anywhere in
the program). -/
theorem C1_counterexample :
    catalogScan [] "nosuch" = [] ∧
    getTableDefinition [] "nosuch" = .ok ⟨"nosuch", [], []⟩ ∧
    executeSelect [] false ⟨"nosuch", ["x"]⟩ = .error (.unknownField "x") := by
  refine ⟨rfl, rfl, rfl⟩

/-- C1 (amended): when the catalog scan of a table yields no column
entries, `getTableDefinition` succeeds with empty column lists, and a
SELECT naming that table with a non-empty target list fails with the
unknown-field error for its first target (not with any table-unknown
error, which the program does not have). -/
theorem C1_empty_scan_behaviour (s : KVStore) (name : String)
    (h : catalogScan s name = []) :
    getTableDefinition s name = .ok ⟨name, [], []⟩ ∧
    ∀ (tx : Bool) (t : String) (ts : List String),
      executeSelect s tx ⟨name, t :: ts⟩ = .error (.unknownField t) := by
  have hdef := scannedTableDef_empty s name h
  refine ⟨by simp [getTableDefinition, hdef], ?_⟩
  intro tx t ts
  simp [executeSelect, getTableDefinition, hdef, resolveFieldTypes,
    lookupFieldType]

/-- C1 witness. -/
theorem C1_empty_scan_behaviour_witness :
    catalogScan [] "missing" = [] ∧
    executeSelect [] true ⟨"missing", ["y"]⟩ = .error (.unknownField "y") :=
  ⟨rfl, (C1_empty_scan_behaviour [] "missing" rfl).2 true "y" []⟩

/-!  C6: `executeCreate`.  -/

/-- The spec's description of the type token: the dotted type-name
components joined with `.` . -/
def dotJoin : List String → String
  | [] => ""
  | n :: ns => ns.foldl (fun a b => a ++ "." ++ b) n

theorem append_dot_ne_empty (a b : String) : a ++ "." ++ b ≠ "" := by
  intro hc
  have h1 := congrArg String.length hc
  rw [String.length_append, String.length_append] at h1
  have h2 : (".").length = 1 := rfl
  have h3 : ("" : String).length = 0 := rfl
  omega

theorem columnTypeToken_foldl_eq (ns : List String) :
    ∀ a : String, a ≠ "" →
      ns.foldl (fun acc n => (if acc != "" then acc ++ "." else acc) ++ n) a =
        ns.foldl (fun x y => x ++ "." ++ y) a := by
  induction ns with
  | nil => intro a _; rfl
  | cons m ms ih =>
    intro a ha
    have hstep : (if a != "" then a ++ "." else a) ++ m = a ++ "." ++ m := by
      simp [ha]
    simp only [List.foldl_cons, hstep]
    exact ih (a ++ "." ++ m) (append_dot_ne_empty a m)

theorem columnTypeToken_eq_dotJoin (ns : List String)
    (h : ∀ n ∈ ns, n ≠ "") : columnTypeToken ns = dotJoin ns := by
  cases ns with
  | nil => rfl
  | cons n ns' =>
    have hn : n ≠ "" := h n (by simp)
    have h0 : (if ("" : String) != "" then "" ++ "." else "") ++ n = n := by
      simp
    simp only [columnTypeToken, dotJoin, List.foldl_cons, h0]
    exact columnTypeToken_foldl_eq ns' n hn

/-- The write-trace of `executeCreate`'s column loop. -/
theorem executeCreate_foldl_writes (name : String) (elts : List ColumnDef) :
    ∀ (p : KVStore × List (FdbKey × Bytes)),
      (elts.foldl
        (fun acc c =>
          let tok := columnTypeToken c.typeNames
          (kvSet acc.1 (.columnDef name c.colname) tok,
           acc.2 ++ [(.columnDef name c.colname, tok)])) p).2 =
      p.2 ++ elts.map (fun c =>
        ((.columnDef name c.colname : FdbKey), columnTypeToken c.typeNames)) := by
  induction elts with
  | nil => intro p; simp
  | cons c cs ih =>
    intro p
    simp [List.foldl_cons, ih]

/-- The column loop never touches the existence marker. -/
theorem executeCreate_foldl_marker (name tname : String)
    (elts : List ColumnDef) :
    ∀ (p : KVStore × List (FdbKey × Bytes)),
      kvGet (elts.foldl
        (fun acc c =>
          let tok := columnTypeToken c.typeNames
          (kvSet acc.1 (.columnDef name c.colname) tok,
           acc.2 ++ [(.columnDef name c.colname, tok)])) p).1
        (.tableMarker tname) =
      kvGet p.1 (.tableMarker tname) := by
  induction elts with
  | nil => intro p; rfl
  | cons c cs ih =>
    intro p
    rw [List.foldl_cons, ih]
    exact kvGet_kvSet_ne _ _ _ _ (by intro hc; cases hc)

/-- C6: within one transaction, `executeCreate` is a no-op when the table
existence marker is already present; otherwise its `Set` calls are exactly
the existence marker with empty value followed by one column-definition
key per declared column in declaration order, each valued with the type
token, and that token agrees with joining the dotted type-name components
with `.` whenever the components are non-empty. -/
theorem C6_executeCreate_spec (s : KVStore) (stmt : CreateStmt) :
    ((kvGet s (.tableMarker stmt.relname)).isSome →
      executeCreate s stmt = (s, [])) ∧
    (kvGet s (.tableMarker stmt.relname) = none →
      (executeCreate s stmt).2 =
        (.tableMarker stmt.relname, "") ::
          stmt.tableElts.map (fun c =>
            ((.columnDef stmt.relname c.colname : FdbKey),
              columnTypeToken c.typeNames)) ∧
      kvGet (executeCreate s stmt).1 (.tableMarker stmt.relname) =
        some "" ∧
      ∀ c ∈ stmt.tableElts, (∀ n ∈ c.typeNames, n ≠ "") →
        columnTypeToken c.typeNames = dotJoin c.typeNames) := by
  constructor
  · intro hp
    simp [executeCreate, hp]
  · intro hn
    have hns : ¬ (kvGet s (.tableMarker stmt.relname)).isSome := by
      simp [hn]
    refine ⟨?_, ?_, ?_⟩
    · simp only [executeCreate, if_neg hns]
      rw [executeCreate_foldl_writes]
      rfl
    · simp only [executeCreate, if_neg hns]
      rw [executeCreate_foldl_marker]
      exact kvGet_kvSet_self _ _ _
    · intro c _ hc
      exact columnTypeToken_eq_dotJoin c.typeNames hc

/-- C6 witness. -/
theorem C6_executeCreate_spec_witness :
    kvGet ([] : KVStore) (.tableMarker "t") = none ∧
    (executeCreate [] ⟨"t", [⟨"a", ["text"]⟩, ⟨"b", ["pg_catalog", "int4"]⟩]⟩).2 =
      [(.tableMarker "t", ""), (.columnDef "t" "a", "text"),
       (.columnDef "t" "b", "pg_catalog.int4")] ∧
    columnTypeToken ["pg_catalog", "int4"] = dotJoin ["pg_catalog", "int4"] := by
  have h := (C6_executeCreate_spec []
    ⟨"t", [⟨"a", ["text"]⟩, ⟨"b", ["pg_catalog", "int4"]⟩]⟩).2 rfl
  refine ⟨rfl, ?_, ?_⟩
  · rw [h.1]
    rfl
  · exact h.2.2 ⟨"b", ["pg_catalog", "int4"]⟩ (by simp) (by
      intro n hn
      simp at hn
      rcases hn with h1 | h1 <;> simp [h1])

/-!  C5: `executeDelete`.  -/

/-- C5: one transaction.  If the target table's existence marker is absent,
`executeDelete` is a no-op (the store is unchanged).  Otherwise it clears
every key returned by a range scan of the whole `data/table_data` subspace:
afterwards no data cell of ANY table remains, while catalog keys (markers
and column definitions) are untouched. -/
theorem C5_executeDelete_spec (s : KVStore) (stmt : DeleteStmt) :
    (kvGet s (.tableMarker stmt.relname) = none →
      executeDelete s stmt = s) ∧
    ((kvGet s (.tableMarker stmt.relname)).isSome →
      (∀ t l x y, kvGet (executeDelete s stmt) (.dataCell t l x y) = none) ∧
      (∀ t, kvGet (executeDelete s stmt) (.tableMarker t) =
        kvGet s (.tableMarker t)) ∧
      (∀ t c, kvGet (executeDelete s stmt) (.columnDef t c) =
        kvGet s (.columnDef t c))) := by
  constructor
  · intro hn
    simp [executeDelete, hn]
  · intro hp
    have hne : ¬ (kvGet s (.tableMarker stmt.relname)).isNone := by
      rcases h : kvGet s (.tableMarker stmt.relname) with _ | v
      · rw [h] at hp; simp at hp
      · simp
    have hdel : executeDelete s stmt = (tableDataKeys s).foldl kvClear s := by
      simp [executeDelete, hne]
    refine ⟨?_, ?_, ?_⟩
    · intro t l x y
      rw [hdel, foldl_kvClear_get]
      by_cases hm : (FdbKey.dataCell t l x y) ∈ tableDataKeys s
      · simp [hm]
      · have hsk : (FdbKey.dataCell t l x y) ∉ storeKeys s := by
          intro hc
          exact hm (List.mem_filter.mpr ⟨hc, rfl⟩)
        simp [hm, kvGet_eq_none_of_not_mem s _ hsk]
    · intro t
      rw [hdel, foldl_kvClear_get]
      have : (FdbKey.tableMarker t) ∉ tableDataKeys s := by
        intro hc
        have := (List.mem_filter.mp hc).2
        simp at this
      simp [this]
    · intro t c
      rw [hdel, foldl_kvClear_get]
      have : (FdbKey.columnDef t c) ∉ tableDataKeys s := by
        intro hc
        have := (List.mem_filter.mp hc).2
        simp at this
      simp [this]

/-- C5 witness: a store holding one table with a marker, a column
definition and one data cell in each layout; after DELETE both data cells
are gone and the catalog survives; and the no-op arm at a store without
the marker. -/
theorem C5_executeDelete_spec_witness :
    (kvGet
        [(FdbKey.dataCell "t" "r" "i" "a", "v"),
         (FdbKey.dataCell "t" "c" "a" "i", "v"),
         (FdbKey.columnDef "t" "a", "text"),
         (FdbKey.tableMarker "t", "")] (.tableMarker "t")).isSome ∧
    kvGet (executeDelete
        [(FdbKey.dataCell "t" "r" "i" "a", "v"),
         (FdbKey.dataCell "t" "c" "a" "i", "v"),
         (FdbKey.columnDef "t" "a", "text"),
         (FdbKey.tableMarker "t", "")] ⟨"t"⟩) (.dataCell "t" "r" "i" "a") =
      none ∧
    executeDelete [(FdbKey.columnDef "u" "a", "text")] ⟨"u"⟩ =
      [(FdbKey.columnDef "u" "a", "text")] := by
  refine ⟨by decide, ?_, ?_⟩
  · exact ((C5_executeDelete_spec
      [(FdbKey.dataCell "t" "r" "i" "a", "v"),
       (FdbKey.dataCell "t" "c" "a" "i", "v"),
       (FdbKey.columnDef "t" "a", "text"),
       (FdbKey.tableMarker "t", "")] ⟨"t"⟩).2 (by decide)).1 "t" "r" "i" "a"
  · exact (C5_executeDelete_spec
      [(FdbKey.columnDef "u" "a", "text")] ⟨"u"⟩).1 (by decide)

/-!  C9: both SELECT paths discard the scan transaction's error.  -/

/-- C9: once the table and the target columns resolve, both SELECT paths
return a result with a nil error whether or not the KV scan transaction
inside them fails — the source assigns the transaction's return values to
blanks (`_, _ = pe.db.Transact(...)`) and unconditionally returns
`results, nil`. -/
theorem C9_select_tx_error_discarded (s : KVStore) (stmt : SelectStmt)
    (fts : List String)
    (h : resolveFieldTypes (scannedTableDef s stmt.fromTable) stmt.targets =
      .ok fts) :
    ∀ txFails : Bool,
      (∃ r, executeSelect s txFails stmt = .ok r) ∧
      (∃ r, executeSelectColumnar s txFails stmt = .ok r) := by
  intro txFails
  cases txFails <;>
    simp [executeSelect, executeSelectColumnar, getTableDefinition, h]

/-- C9 witness: a store with one table, one row, and a resolvable target;
both the failing-transaction and the successful-transaction runs return a
result. -/
theorem C9_select_tx_error_discarded_witness :
    resolveFieldTypes
        (scannedTableDef [(FdbKey.columnDef "t" "a", "text")] "t") ["a"] =
      .ok ["text"] ∧
    (∃ r, executeSelect [(FdbKey.columnDef "t" "a", "text")] true
      ⟨"t", ["a"]⟩ = .ok r) ∧
    (∃ r, executeSelectColumnar [(FdbKey.columnDef "t" "a", "text")] false
      ⟨"t", ["a"]⟩ = .ok r) := by
  have h := C9_select_tx_error_discarded
    [(FdbKey.columnDef "t" "a", "text")] ⟨"t", ["a"]⟩ ["text"] rfl
  exact ⟨rfl, (h true).1, (h false).2⟩

/-!  C8: multi-statement Query messages.  -/

/-- C8: a Query whose SQL parses to more than one top-level statement is
rejected: `handleMessage` returns the too-many-statements error, executes
nothing (the store is unchanged), sends no frames, and `handle` then logs
the error and closes the connection. -/
theorem C8_multi_statement_rejected (s : KVStore) (ids : List String)
    (columnar : Bool) (sql : String) (stmts : List Stmt)
    (h : 1 < stmts.length) :
    handleMessage s ids columnar (.query sql (.parsed stmts)) =
      ⟨[], s, some .tooManyStatements⟩ ∧
    ∀ rest, handleLoop s columnar
        ((Msg.query sql (.parsed stmts), ids) :: rest) = ([], s, true) := by
  have hm : handleMessage s ids columnar (.query sql (.parsed stmts)) =
      ⟨[], s, some .tooManyStatements⟩ := by
    simp [handleMessage, h]
  exact ⟨hm, fun rest => by simp [handleLoop, hm]⟩

/-- C8 witness: `select 1; select 2;` as two parsed statements. -/
theorem C8_multi_statement_rejected_witness :
    1 < ([Stmt.selectS ⟨"t", ["a"]⟩, Stmt.selectS ⟨"t", ["b"]⟩] : List Stmt).length ∧
    handleMessage [] [] false (.query "select 1; select 2;"
        (.parsed [Stmt.selectS ⟨"t", ["a"]⟩, Stmt.selectS ⟨"t", ["b"]⟩])) =
      ⟨[], [], some .tooManyStatements⟩ :=
  ⟨by decide,
   (C8_multi_statement_rejected [] [] false "select 1; select 2;"
     [Stmt.selectS ⟨"t", ["a"]⟩, Stmt.selectS ⟨"t", ["b"]⟩] (by decide)).1⟩

/-!  C7: error propagation inside a session.  -/

/-- A store holding just the one-column table `t(a text)`. -/
def kvOneCol : KVStore := (executeCreate [] ⟨"t", [⟨"a", ["text"]⟩]⟩).1

/-- C7 (counterexample): the claim says EVERY error raised during query
execution (including INSERT execution errors) aborts the query, sends no
CommandComplete and closes the connection.  But for an INSERT whose value
has an unsupported constant kind, `executeInsert` returns the
unknown-value-type error, `handleMessage` discards it
(`pe.execute(*stmts)` with the result unused), still sends
`CommandComplete "INSERT ok"` plus ReadyForQuery, and returns no error —
so the connection stays open. -/
theorem C7_counterexample :
    (executeInsert kvOneCol ⟨"t", [[.other]]⟩ ["id1"]).2 =
      some .unknownValueType ∧
    handleMessage kvOneCol ["id1"] false (.query "insert into t values (1.5)"
        (.parsed [.insertS ⟨"t", [[.other]]⟩])) =
      ⟨[.commandComplete "INSERT ok", .readyForQuery], kvOneCol, none⟩ := by
  constructor
  · rfl
  · decide

/-- C7 (amended): errors that `handleMessage` returns — protocol errors,
parse errors, multi-statement rejections and SELECT execution errors —
abort the query with no frames sent, and `handle` then closes the
connection; but errors during CREATE / INSERT / DELETE execution are
discarded: the message still completes with `CommandComplete <TOKEN> ok`
and no session error, so the connection stays open. -/
theorem C7_session_error_behaviour (s : KVStore) (ids : List String)
    (columnar : Bool) (sql : String) :
    (∀ sel e,
      (if columnar then executeSelectColumnar s false sel
       else executeSelect s false sel) = .error e →
      handleMessage s ids columnar (.query sql (.parsed [.selectS sel])) =
        ⟨[], s, some (.engineError e)⟩) ∧
    (∀ m rest, (handleMessage s ids columnar m).err.isSome →
      handleLoop s columnar ((m, ids) :: rest) =
        ((handleMessage s ids columnar m).frames,
         (handleMessage s ids columnar m).store, true)) ∧
    (∀ stmts : List Stmt, stmts.length ≤ 1 →
      (∀ sel, stmts.headD .otherStmt ≠ .selectS sel) →
      (handleMessage s ids columnar (.query sql (.parsed stmts))).err =
        none ∧
      (handleMessage s ids columnar (.query sql (.parsed stmts))).frames =
        doneFrames (firstToken sql ++ " ok")) := by
  refine ⟨?_, ?_, ?_⟩
  · intro sel e he
    simp [handleMessage, he]
  · intro m rest hsome
    rcases herr : (handleMessage s ids columnar m).err with _ | e
    · rw [herr] at hsome; simp at hsome
    · simp [handleLoop, herr]
  · intro stmts hlen hns
    cases stmts with
    | nil => exact ⟨rfl, rfl⟩
    | cons st rest =>
      cases rest with
      | cons st2 r2 => simp at hlen
      | nil =>
        cases st with
        | createS c => exact ⟨rfl, rfl⟩
        | insertS i => exact ⟨rfl, rfl⟩
        | deleteS d => exact ⟨rfl, rfl⟩
        | selectS sel => exact absurd rfl (hns sel)
        | otherStmt => exact ⟨rfl, rfl⟩

/-- C7 witness: a DELETE on a missing table completes with
`CommandComplete "DELETE ok"` and leaves the session open, and a SELECT on
a missing column returns an error which closes the loop. -/
theorem C7_session_error_behaviour_witness :
    ((handleMessage [] [] false (.query "delete from t"
        (.parsed [.deleteS ⟨"t"⟩]))).err = none) ∧
    handleMessage [] [] false (.query "select x from t"
        (.parsed [.selectS ⟨"t", ["x"]⟩])) =
      ⟨[], [], some (.engineError (.unknownField "x"))⟩ := by
  constructor
  · exact ((C7_session_error_behaviour [] [] false "delete from t").2.2
      [.deleteS ⟨"t"⟩] (by decide) (fun sel h => by cases h)).1
  · exact (C7_session_error_behaviour [] [] false "select x from t").1
      ⟨"t", ["x"]⟩ (.unknownField "x") rfl

/-!  C2: row assembly of the row-layout SELECT.  -/

/-- Loop invariant of `executeSelect`'s scan: the rows built so far split
into finished rows, each holding exactly `F` values, and the row under
construction (pointed to by `rowIndex`), holding at most `F` values. -/
def ScanInv (F : Nat) (st : RowScanState) : Prop :=
  ∃ mid cur, st.targetRows = mid ++ [cur] ∧ st.rowIndex = mid.length ∧
    (∀ r ∈ mid, r.length = F) ∧ cur.length ≤ F

theorem colOrderUpd_targetRows (F : Nat) (st : RowScanState) (c : String) :
    (colOrderUpd F st c).targetRows = st.targetRows := by
  unfold colOrderUpd
  split <;> rfl

theorem colOrderUpd_rowIndex (F : Nat) (st : RowScanState) (c : String) :
    (colOrderUpd F st c).rowIndex = st.rowIndex := by
  unfold colOrderUpd
  split <;> rfl

theorem scanInv_step (F : Nat) (hF : 0 < F) (st : RowScanState)
    (cell : (String × String) × Bytes) (h : ScanInv F st) :
    ScanInv F (rowScanStep F st cell) := by
  obtain ⟨mid, cur, hrows, hidx, hmid, hcur⟩ := h
  have hco := colOrderUpd_targetRows F st cell.1.2
  have hci := colOrderUpd_rowIndex F st cell.1.2
  have hgd : (colOrderUpd F st cell.1.2).targetRows.getD
      (colOrderUpd F st cell.1.2).rowIndex [] = cur := by
    rw [hco, hci, hrows, hidx]
    exact getD_append_length mid cur [] []
  by_cases hc : cur.length = F
  · -- the current row is full: a new row is started
    have hb : rowBreakUpd F (colOrderUpd F st cell.1.2) =
        { colOrderUpd F st cell.1.2 with
            targetRows := (colOrderUpd F st cell.1.2).targetRows ++ [[]],
            rowIndex := (colOrderUpd F st cell.1.2).rowIndex + 1 } := by
      unfold rowBreakUpd
      rw [hgd]
      simp [hc]
    refine ⟨mid ++ [cur], [cell.2], ?_, ?_, ?_, ?_⟩
    · show (rowScanStep F st cell).targetRows = (mid ++ [cur]) ++ [[cell.2]]
      unfold rowScanStep appendVal
      rw [hb]
      simp only [hco, hci, hrows, hidx]
      have hlen : (mid ++ [cur]).length = mid.length + 1 := by simp
      have hgd2 : ((mid ++ [cur]) ++ [[]]).getD (mid.length + 1) ([] : List Bytes) = [] := by
        rw [← hlen]
        exact getD_append_length (mid ++ [cur]) [] [] []
      have hset : ((mid ++ [cur]) ++ [[]]).set (mid.length + 1)
          (([] : List Bytes) ++ [cell.2]) = (mid ++ [cur]) ++ [[] ++ [cell.2]] := by
        rw [← hlen]
        exact set_append_length (mid ++ [cur]) [] ([] ++ [cell.2]) []
      rw [hgd2, hset]
      simp
    · show (rowScanStep F st cell).rowIndex = (mid ++ [cur]).length
      unfold rowScanStep appendVal
      rw [hb]
      simp [hci, hidx]
    · intro r hr
      rcases List.mem_append.mp hr with h1 | h1
      · exact hmid r h1
      · simp at h1
        rw [h1]
        exact hc
    · simpa using hF
  · -- the current row is not full: the value joins it
    have hb : rowBreakUpd F (colOrderUpd F st cell.1.2) =
        colOrderUpd F st cell.1.2 := by
      unfold rowBreakUpd
      rw [hgd]
      simp [hc]
    refine ⟨mid, cur ++ [cell.2], ?_, ?_, hmid, ?_⟩
    · show (rowScanStep F st cell).targetRows = mid ++ [cur ++ [cell.2]]
      unfold rowScanStep appendVal
      rw [hb]
      simp only [hco, hci, hrows, hidx]
      have hgd2 : (mid ++ [cur]).getD mid.length ([] : List Bytes) = cur :=
        getD_append_length mid cur [] []
      rw [hgd2]
      exact set_append_length mid cur (cur ++ [cell.2]) []
    · show (rowScanStep F st cell).rowIndex = mid.length
      unfold rowScanStep appendVal
      rw [hb]
      simp [hci, hidx]
    · have : cur.length < F := Nat.lt_of_le_of_ne hcur hc
      simp
      omega

theorem scanInv_foldl (F : Nat) (hF : 0 < F)
    (cells : List ((String × String) × Bytes)) :
    ∀ st, ScanInv F st → ScanInv F (cells.foldl (rowScanStep F) st) := by
  induction cells with
  | nil => intro st h; exact h
  | cons c cs ih =>
    intro st h
    exact ih (rowScanStep F st c) (scanInv_step F hF st c h)

theorem scanInv_init (F : Nat) : ScanInv F ⟨[[]], 0, []⟩ :=
  ⟨[], [], rfl, rfl, by simp, by simp⟩

/-- The shape of the emitted rows, from the loop invariant: after the
trailing-empty-row trimming, every row is non-empty with at most `F`
values, and every row but possibly the last holds exactly `F` values. -/
theorem rows_shape (F : Nat) (hF : 0 < F) (st : RowScanState)
    (h : ScanInv F st) :
    (∀ i, i + 1 <
        ((st.targetRows ++ [[]]).filter
          (fun r : List Bytes => decide (0 < r.length))).length →
      (((st.targetRows ++ [[]]).filter
          (fun r : List Bytes => decide (0 < r.length))).getD i []).length = F) ∧
    (∀ r ∈ (st.targetRows ++ [[]]).filter
        (fun r : List Bytes => decide (0 < r.length)),
      0 < r.length ∧ r.length ≤ F) := by
  obtain ⟨mid, cur, hrows, _, hmid, hcur⟩ := h
  rw [hrows]
  have hfmid : mid.filter (fun r => decide (0 < r.length)) = mid := by
    rw [List.filter_eq_self]
    intro r hr
    simp [hmid r hr]
    omega
  have hfe : ([([] : List Bytes)]).filter (fun r => decide (0 < r.length)) = [] := by
    simp
  have hmem_len : ∀ i, i < mid.length → (mid.getD i []).length = F := by
    intro i hi
    have hm : mid.getD i [] ∈ mid := by
      rw [List.getD_eq_getElem?_getD, List.getElem?_eq_getElem hi]
      exact List.getElem_mem hi
    exact hmid _ hm
  by_cases hcl : 0 < cur.length
  · have hfcur : ([cur]).filter (fun r => decide (0 < r.length)) = [cur] := by
      simp [hcl]
    have hfilter : ((mid ++ [cur]) ++ [[]]).filter
        (fun r => decide (0 < r.length)) = mid ++ [cur] := by
      rw [List.filter_append, List.filter_append, hfmid, hfcur, hfe,
        List.append_nil]
    rw [hfilter]
    constructor
    · intro i hi
      have hi' : i < mid.length := by
        simp at hi
        omega
      rw [getD_append_lt mid [cur] i [] hi']
      exact hmem_len i hi'
    · intro r hr
      rcases List.mem_append.mp hr with h1 | h1
      · have := hmid r h1
        constructor <;> omega
      · simp at h1
        rw [h1]
        exact ⟨hcl, hcur⟩
  · have hfcur : ([cur]).filter (fun r => decide (0 < r.length)) = [] := by
      simp at hcl
      simp [hcl]
    have hfilter : ((mid ++ [cur]) ++ [[]]).filter
        (fun r => decide (0 < r.length)) = mid := by
      rw [List.filter_append, List.filter_append, hfmid, hfcur, hfe]
      simp
    rw [hfilter]
    constructor
    · intro i hi
      exact hmem_len i (by omega)
    · intro r hr
      have := hmid r hr
      constructor <;> omega

/-- The break decision itself: `rowScanStep` starts a new row exactly when
the row under construction holds `F` values. -/
theorem rowScanStep_newRow_iff (F : Nat) (st : RowScanState)
    (cell : (String × String) × Bytes) :
    (rowScanStep F st cell).rowIndex = st.rowIndex + 1 ↔
      (st.targetRows.getD st.rowIndex []).length = F := by
  have hco := colOrderUpd_targetRows F st cell.1.2
  have hci := colOrderUpd_rowIndex F st cell.1.2
  have hri : (rowScanStep F st cell).rowIndex =
      (rowBreakUpd F (colOrderUpd F st cell.1.2)).rowIndex := rfl
  have hgd : (colOrderUpd F st cell.1.2).targetRows.getD
      (colOrderUpd F st cell.1.2).rowIndex [] =
      st.targetRows.getD st.rowIndex [] := by
    rw [hco, hci]
  set x := st.targetRows.getD st.rowIndex [] with hx
  by_cases hc : x.length = F
  · have hb : rowBreakUpd F (colOrderUpd F st cell.1.2) =
        { colOrderUpd F st cell.1.2 with
            targetRows := (colOrderUpd F st cell.1.2).targetRows ++ [[]],
            rowIndex := (colOrderUpd F st cell.1.2).rowIndex + 1 } := by
      unfold rowBreakUpd
      rw [hgd]
      simp [hc]
    rw [hri, hb]
    simp [hci, hc]
  · have hb : rowBreakUpd F (colOrderUpd F st cell.1.2) =
        colOrderUpd F st cell.1.2 := by
      unfold rowBreakUpd
      rw [hgd]
      simp [hc]
    rw [hri, hb, hci]
    simp [hc]

theorem scannedTableDef_Name (s : KVStore) (n : String) :
    (scannedTableDef s n).Name = n := rfl

/-- C2 (amended): in the row-layout SELECT the scan loop starts a new
result row exactly when the row under construction has accumulated a
number of values equal to the length of the SELECT's target list
(`len(results.fieldNames)`), NOT the column count of the table's column
list; consequently every emitted row except possibly the last holds one
value per target column (at most, and the last at least one). -/
theorem C2_row_assembly (s : KVStore) (stmt : SelectStmt) (res : pgResult)
    (hF : 0 < stmt.targets.length)
    (h : executeSelect s false stmt = .ok res) :
    (∀ i, i + 1 < res.rows.length →
      (res.rows.getD i []).length = stmt.targets.length) ∧
    (∀ r ∈ res.rows, 0 < r.length ∧ r.length ≤ stmt.targets.length) ∧
    (∀ st cell, (rowScanStep stmt.targets.length st cell).rowIndex =
        st.rowIndex + 1 ↔
      (st.targetRows.getD st.rowIndex []).length = stmt.targets.length) := by
  rcases hres : resolveFieldTypes (scannedTableDef s stmt.fromTable)
      stmt.targets with e | fts
  · simp [executeSelect, getTableDefinition, hres] at h
  · simp only [executeSelect, getTableDefinition, hres,
      scannedTableDef_Name, Bool.false_eq_true, if_false] at h
    have hx := Except.ok.inj h
    subst hx
    have hinv := scanInv_foldl stmt.targets.length hF
      (rowLayoutScan s stmt.fromTable) ⟨[[]], 0, []⟩
      (scanInv_init stmt.targets.length)
    have hshape := rows_shape stmt.targets.length hF _ hinv
    exact ⟨hshape.1, hshape.2,
      fun st cell => rowScanStep_newRow_iff stmt.targets.length st cell⟩

/-- A store holding the two-column table `u(a text, b text)`. -/
def kvTwoCols : KVStore :=
  (executeCreate [] ⟨"u", [⟨"a", ["text"]⟩, ⟨"b", ["text"]⟩]⟩).1

/-- `kvTwoCols` after `insert into u values ('x', 'y')` with row id
`id1`. -/
def kvTwoColsRow : KVStore :=
  (executeInsert kvTwoCols ⟨"u", [[.strC "x", .strC "y"]]⟩ ["id1"]).1

/-- C2 (counterexample): the claim says a new row starts exactly when the
row under construction holds as many values as the TABLE's column list,
so each emitted row would hold one value per table column.  For
`select a from u` on the two-column table `u` holding one full row, the
scan yields two cells and the loop breaks after every single value (the
target-list length), emitting two rows of one value each — not one row of
two values. -/
theorem C2_counterexample :
    (scannedTableDef kvTwoColsRow "u").ColumnNames.length = 2 ∧
    executeSelect kvTwoColsRow false ⟨"u", ["a"]⟩ =
      .ok ⟨["a"], ["text"], [["x"], ["y"]]⟩ ∧
    ¬ (∀ r ∈ ([["x"], ["y"]] : List (List Bytes)),
        r.length = (scannedTableDef kvTwoColsRow "u").ColumnNames.length) := by
  have h1 : (scannedTableDef kvTwoColsRow "u").ColumnNames.length = 2 := by
    decide
  refine ⟨h1, rfl, ?_⟩
  intro hcl
  have h3 := hcl ["x"] (by simp)
  rw [h1] at h3
  exact absurd h3 (by decide)

/-- C2 witness. -/
theorem C2_row_assembly_witness :
    0 < (1 : Nat) ∧
    ∀ r ∈ ([["x"], ["y"]] : List (List Bytes)),
      0 < r.length ∧ r.length ≤ 1 :=
  ⟨by decide,
   (C2_row_assembly kvTwoColsRow ⟨"u", ["a"]⟩
     ⟨["a"], ["text"], [["x"], ["y"]]⟩ (by decide) rfl).2.1⟩

/-!  Write-list lemmas for the INSERT proofs.  -/

theorem writesLookup_foldl (k : FdbKey) (ws : List (FdbKey × Bytes)) :
    ∀ acc : Option Bytes,
      ws.foldl (fun acc w => if w.1 == k then some w.2 else acc) acc =
        (writesLookup ws k).or acc := by
  induction ws with
  | nil => intro acc; rfl
  | cons w ws' ih =>
    intro acc
    simp only [writesLookup, List.foldl_cons]
    rw [ih, ih]
    rcases hx : writesLookup ws' k with _ | v
    · by_cases hw : (w.1 == k) = true <;> simp [hw, Option.or]
    · simp [Option.or]

theorem writesLookup_cons (w : FdbKey × Bytes) (ws : List (FdbKey × Bytes))
    (k : FdbKey) :
    writesLookup (w :: ws) k =
      (writesLookup ws k).or (if w.1 == k then some w.2 else none) :=
  writesLookup_foldl k ws _

theorem kvGet_applyWrites (ws : List (FdbKey × Bytes)) :
    ∀ (s : KVStore) (k : FdbKey),
      kvGet (applyWrites s ws) k = (writesLookup ws k).or (kvGet s k) := by
  induction ws with
  | nil => intro s k; rfl
  | cons w ws' ih =>
    intro s k
    show kvGet (applyWrites (kvSet s w.1 w.2) ws') k = _
    rw [ih, writesLookup_cons]
    by_cases hw : w.1 = k
    · rcases writesLookup ws' k with _ | v <;>
        simp [kvGet, kvSet, hw, Option.or]
    · rcases writesLookup ws' k with _ | v <;>
        simp [kvGet, kvSet, hw, Option.or]

theorem writesLookup_eq_none (ws : List (FdbKey × Bytes)) (k : FdbKey)
    (h : ∀ w ∈ ws, w.1 ≠ k) : writesLookup ws k = none := by
  induction ws with
  | nil => rfl
  | cons w ws' ih =>
    rw [writesLookup_cons]
    have hw : (w.1 == k) = false := beq_eq_false_iff_ne.mpr (h w (by simp))
    rw [ih (fun w' hw' => h w' (by simp [hw']))]
    simp [hw, Option.or]

theorem writesLookup_last (ws : List (FdbKey × Bytes)) (k : FdbKey)
    (v : Bytes)
    (h : ws.getD (ws.length - 1) (.tableMarker "", "") = (k, v))
    (hne : ws ≠ []) : writesLookup ws k = some v := by
  induction ws with
  | nil => exact absurd rfl hne
  | cons w ws' ih =>
    cases ws' with
    | nil =>
      have hw : w = (k, v) := by simpa using h
      subst hw
      simp [writesLookup]
    | cons w2 ws'' =>
      rw [writesLookup_cons]
      have hlen : (w :: w2 :: ws'').length - 1 =
          ((w2 :: ws'').length - 1) + 1 := by
        simp
      rw [hlen, List.getD_cons_succ] at h
      rw [ih h (by simp)]
      rfl

/-!  C3: the dual-layout invariant of INSERT.  -/

/-- The row-layout / column-layout agreement invariant: every row-layout
cell has the matching column-layout cell with identical value bytes, and
vice versa. -/
def layoutsMatch (s : KVStore) : Prop :=
  ∀ t id col, kvGet s (.dataCell t "r" id col) =
    kvGet s (.dataCell t "c" col id)

/-- The shape of an INSERT transaction's write list: a sequence of pairs,
each writing the column-layout cell then the row-layout cell of one
(row id, column) with the same value bytes. -/
inductive PairedWrites (t : String) : List (FdbKey × Bytes) → Prop
  | nil : PairedWrites t []
  | cons (id col : String) (v : Bytes) (rest : List (FdbKey × Bytes)) :
      PairedWrites t rest →
      PairedWrites t ((.dataCell t "c" col id, v) ::
        (.dataCell t "r" id col, v) :: rest)

theorem layoutsMatch_doubleSet (s : KVStore) (t id col : String) (v : Bytes)
    (h : layoutsMatch s) :
    layoutsMatch (kvSet (kvSet s (.dataCell t "c" col id) v)
      (.dataCell t "r" id col) v) := by
  intro t' id' col'
  by_cases heq : t' = t ∧ id' = id ∧ col' = col
  · obtain ⟨h1, h2, h3⟩ := heq
    subst h1; subst h2; subst h3
    rw [kvGet_kvSet_self]
    rw [kvGet_kvSet_ne _ _ _ _ (by simp), kvGet_kvSet_self]
  · have hr : FdbKey.dataCell t' "r" id' col' ≠
        FdbKey.dataCell t "r" id col := by
      intro hc
      simp only [FdbKey.dataCell.injEq] at hc
      exact heq ⟨hc.1, hc.2.2.1, hc.2.2.2⟩
    have hrc : FdbKey.dataCell t' "r" id' col' ≠
        FdbKey.dataCell t "c" col id := by
      intro hc
      simp at hc
    have hc' : FdbKey.dataCell t' "c" col' id' ≠
        FdbKey.dataCell t "c" col id := by
      intro hc
      simp only [FdbKey.dataCell.injEq] at hc
      exact heq ⟨hc.1, hc.2.2.2, hc.2.2.1⟩
    have hcr : FdbKey.dataCell t' "c" col' id' ≠
        FdbKey.dataCell t "r" id col := by
      intro hc
      simp at hc
    rw [kvGet_kvSet_ne _ _ _ _ hr, kvGet_kvSet_ne _ _ _ _ hrc,
      kvGet_kvSet_ne _ _ _ _ hcr, kvGet_kvSet_ne _ _ _ _ hc']
    exact h t' id' col'

theorem pairedWrites_layoutsMatch (t : String)
    (ws : List (FdbKey × Bytes)) (hp : PairedWrites t ws) :
    ∀ s, layoutsMatch s → layoutsMatch (applyWrites s ws) := by
  induction hp with
  | nil => intro s h; exact h
  | cons id col v rest _ ih =>
    intro s h
    exact ih _ (layoutsMatch_doubleSet s t id col v h)

theorem pairedWrites_append (t : String) (ws1 ws2 : List (FdbKey × Bytes))
    (h1 : PairedWrites t ws1) (h2 : PairedWrites t ws2) :
    PairedWrites t (ws1 ++ ws2) := by
  induction h1 with
  | nil => exact h2
  | cons id col v rest _ ih => exact .cons id col v _ ih

theorem insertTuple_paired (t : String) (cols : List String) (id : String)
    (vs : List PgConst) :
    ∀ (ci : Nat) (ws : List (FdbKey × Bytes)),
      insertTuple t cols id vs ci = .ok ws → PairedWrites t ws := by
  induction vs with
  | nil =>
    intro ci ws h
    cases h
    exact .nil
  | cons v vs' ih =>
    intro ci ws h
    cases v with
    | strC str =>
      simp only [insertTuple] at h
      rcases hin : insertTuple t cols id vs'
          (if ci < cols.length - 1 then ci + 1 else ci) with e | ws'
      · rw [hin] at h
        simp [Except.map] at h
      · rw [hin] at h
        simp only [Except.map] at h
        have hws := Except.ok.inj h
        subst hws
        exact .cons id (cols.getD ci "") str ws' (ih _ _ hin)
    | intC n =>
      simp only [insertTuple] at h
      rcases hin : insertTuple t cols id vs'
          (if ci < cols.length - 1 then ci + 1 else ci) with e | ws'
      · rw [hin] at h
        simp [Except.map] at h
      · rw [hin] at h
        simp only [Except.map] at h
        have hws := Except.ok.inj h
        subst hws
        exact .cons id (cols.getD ci "") (toString n) ws' (ih _ _ hin)
    | other =>
      simp [insertTuple] at h

theorem insertTuples_paired (t : String) (cols : List String) :
    ∀ (tuples : List (List PgConst × String))
      (ws : List (FdbKey × Bytes)),
      insertTuples t cols tuples = .ok ws → PairedWrites t ws := by
  intro tuples
  induction tuples with
  | nil =>
    intro ws h
    cases h
    exact .nil
  | cons p rest ih =>
    intro ws h
    obtain ⟨vs, id⟩ := p
    simp only [insertTuples, bind, Except.bind] at h
    rcases h1 : insertTuple t cols id vs 0 with e | w
    · rw [h1] at h
      cases h
    · rw [h1] at h
      rcases h2 : insertTuples t cols rest with e | wr
      · rw [h2] at h
        cases h
      · rw [h2] at h
        simp only [pure, Except.pure] at h
        have hws := Except.ok.inj h
        subst hws
        exact pairedWrites_append t w wr
          (insertTuple_paired t cols id vs 0 w h1) (ih wr h2)

/-- C3: for every successful INSERT, the transaction's `Set` calls come in
pairs writing the row-layout key `(table, "r", row_id, column)` and the
column-layout key `(table, "c", column, row_id)` with identical value
bytes, all in one transaction; consequently the dual-layout invariant —
a row-layout cell exists for (table, row_id, column) iff the matching
column-layout cell exists with the same bytes — is preserved across the
commit. -/
theorem C3_insert_dual_layout (s : KVStore) (stmt : InsertStmt)
    (ids : List String) (hm : layoutsMatch s)
    (hok : (executeInsert s stmt ids).2 = none) :
    layoutsMatch (executeInsert s stmt ids).1 ∧
    ∀ ws, insertTuples stmt.relname
        (scannedTableDef s stmt.relname).ColumnNames
        (stmt.valuesLists.zip ids) = .ok ws →
      PairedWrites stmt.relname ws := by
  refine ⟨?_, fun ws hws =>
    insertTuples_paired stmt.relname _ _ ws hws⟩
  by_cases hmk : (kvGet s (.tableMarker stmt.relname)).isNone
  · have : (executeInsert s stmt ids).1 = s := by
      simp [executeInsert, getTableDefinition, hmk]
    rw [this]
    exact hm
  · rcases hws : insertTuples stmt.relname
        (scannedTableDef s stmt.relname).ColumnNames
        (stmt.valuesLists.zip ids) with e | ws
    · exfalso
      simp [executeInsert, getTableDefinition, hmk, hws] at hok
    · have : (executeInsert s stmt ids).1 = applyWrites s ws := by
        simp [executeInsert, getTableDefinition, hmk, hws]
      rw [this]
      exact pairedWrites_layoutsMatch stmt.relname ws
        (insertTuples_paired stmt.relname _ _ ws hws) s hm

/-- C3 witness: inserting one row into the two-column table. -/
theorem C3_insert_dual_layout_witness :
    (executeInsert kvTwoCols ⟨"u", [[.strC "x", .strC "y"]]⟩ ["id1"]).2 =
      none ∧
    layoutsMatch
      (executeInsert kvTwoCols ⟨"u", [[.strC "x", .strC "y"]]⟩ ["id1"]).1 :=
  ⟨by decide,
   (C3_insert_dual_layout kvTwoCols ⟨"u", [[.strC "x", .strC "y"]]⟩ ["id1"]
     (fun t id col => rfl) (by decide)).1⟩

/-!  Positional assignment of INSERT values (C4, C10).  -/

theorem insertTuple_ok (t : String) (cols : List String) (id : String)
    (vs : List PgConst) :
    ∀ ci, (∀ v ∈ vs, v ≠ PgConst.other) →
      ∃ ws, insertTuple t cols id vs ci = .ok ws := by
  induction vs with
  | nil => intro ci _; exact ⟨[], rfl⟩
  | cons v vs' ih =>
    intro ci hv
    obtain ⟨ws', hws'⟩ := ih (if ci < cols.length - 1 then ci + 1 else ci)
      (fun w hw => hv w (by simp [hw]))
    cases v with
    | strC str =>
      refine ⟨(FdbKey.dataCell t "c" (cols.getD ci "") id, str) ::
        (FdbKey.dataCell t "r" id (cols.getD ci ""), str) :: ws', ?_⟩
      simp only [insertTuple]
      rw [hws']
      rfl
    | intC n =>
      refine ⟨(FdbKey.dataCell t "c" (cols.getD ci "") id, toString n) ::
        (FdbKey.dataCell t "r" id (cols.getD ci ""), toString n) :: ws', ?_⟩
      simp only [insertTuple]
      rw [hws']
      rfl
    | other => exact absurd rfl (hv .other (by simp))

/-- Positional characterization of one tuple's write list: the `j`-th
value produces the pair of `Set` calls for column index
`min (ci + j) (len(cols) - 1)` — the clamp of the source's
`columnIndex` walk. -/
theorem insertTuple_writes (t : String) (cols : List String) (id : String)
    (vs : List PgConst) :
    ∀ ci ws, insertTuple t cols id vs ci = .ok ws →
      ci ≤ cols.length - 1 →
      ws.length = 2 * vs.length ∧
      ∀ j, j < vs.length →
        ws.getD (2*j) (.tableMarker "", "") =
          (.dataCell t "c" (cols.getD (min (ci+j) (cols.length - 1)) "") id,
            encodeConst (vs.getD j .other)) ∧
        ws.getD (2*j+1) (.tableMarker "", "") =
          (.dataCell t "r" id (cols.getD (min (ci+j) (cols.length - 1)) ""),
            encodeConst (vs.getD j .other)) := by
  induction vs with
  | nil =>
    intro ci ws h _
    cases h
    exact ⟨rfl, fun j hj => absurd hj (by simp)⟩
  | cons v vs' ih =>
    intro ci ws h hci
    have hciNext : (if ci < cols.length - 1 then ci + 1 else ci) ≤
        cols.length - 1 := by
      split <;> omega
    have hmin0 : min (ci + 0) (cols.length - 1) = ci := by omega
    have hminS : ∀ j', min ((if ci < cols.length - 1 then ci + 1 else ci) + j')
        (cols.length - 1) = min (ci + (j' + 1)) (cols.length - 1) := by
      intro j'
      split <;> omega
    cases v with
    | other => simp [insertTuple] at h
    | strC str =>
      simp only [insertTuple] at h
      rcases hin : insertTuple t cols id vs'
          (if ci < cols.length - 1 then ci + 1 else ci) with e | ws'
      · rw [hin] at h
        simp [Except.map] at h
      · rw [hin] at h
        simp only [Except.map] at h
        have hws := Except.ok.inj h
        subst hws
        obtain ⟨hlen, hidx⟩ := ih _ ws' hin hciNext
        refine ⟨by simp [hlen]; omega, ?_⟩
        intro j hj
        cases j with
        | zero =>
          constructor
          · simp only [Nat.mul_zero, List.getD_cons_zero]
            rw [hmin0]
            rfl
          · simp only [Nat.mul_zero, Nat.zero_add, List.getD_cons_succ,
              List.getD_cons_zero]
            rw [hmin0]
            rfl
        | succ j' =>
          have hj' : j' < vs'.length := by
            simp at hj
            omega
          obtain ⟨ha, hb⟩ := hidx j' hj'
          rw [hminS j'] at ha hb
          have h2 : 2 * (j' + 1) = (2 * j' + 1) + 1 := by ring
          constructor
          · rw [h2, List.getD_cons_succ, List.getD_cons_succ, ha]
            rfl
          · rw [h2]
            have h3 : (2 * j' + 1) + 1 + 1 = (2 * j' + 1 + 1) + 1 := rfl
            rw [h3, List.getD_cons_succ, List.getD_cons_succ, hb]
            rfl
    | intC n =>
      simp only [insertTuple] at h
      rcases hin : insertTuple t cols id vs'
          (if ci < cols.length - 1 then ci + 1 else ci) with e | ws'
      · rw [hin] at h
        simp [Except.map] at h
      · rw [hin] at h
        simp only [Except.map] at h
        have hws := Except.ok.inj h
        subst hws
        obtain ⟨hlen, hidx⟩ := ih _ ws' hin hciNext
        refine ⟨by simp [hlen]; omega, ?_⟩
        intro j hj
        cases j with
        | zero =>
          constructor
          · simp only [Nat.mul_zero, List.getD_cons_zero]
            rw [hmin0]
            rfl
          · simp only [Nat.mul_zero, Nat.zero_add, List.getD_cons_succ,
              List.getD_cons_zero]
            rw [hmin0]
            rfl
        | succ j' =>
          have hj' : j' < vs'.length := by
            simp at hj
            omega
          obtain ⟨ha, hb⟩ := hidx j' hj'
          rw [hminS j'] at ha hb
          have h2 : 2 * (j' + 1) = (2 * j' + 1) + 1 := by ring
          constructor
          · rw [h2, List.getD_cons_succ, List.getD_cons_succ, ha]
            rfl
          · rw [h2]
            have h3 : (2 * j' + 1) + 1 + 1 = (2 * j' + 1 + 1) + 1 := rfl
            rw [h3, List.getD_cons_succ, List.getD_cons_succ, hb]
            rfl

/-- Every write of one tuple targets a data cell of some column index
between `ci` and the clamp, in one of the two layouts. -/
theorem insertTuple_mem (t : String) (cols : List String) (id : String)
    (vs : List PgConst) :
    ∀ ci ws, insertTuple t cols id vs ci = .ok ws →
      ci ≤ cols.length - 1 →
      ∀ w ∈ ws, ∃ m, ci ≤ m ∧ m ≤ cols.length - 1 ∧ m < ci + vs.length ∧
        (w.1 = FdbKey.dataCell t "c" (cols.getD m "") id ∨
         w.1 = FdbKey.dataCell t "r" id (cols.getD m "")) := by
  induction vs with
  | nil =>
    intro ci ws h _ w hw
    cases h
    simp at hw
  | cons v vs' ih =>
    intro ci ws h hci w hw
    have hciNext : (if ci < cols.length - 1 then ci + 1 else ci) ≤
        cols.length - 1 := by
      split <;> omega
    cases v with
    | other => simp [insertTuple] at h
    | strC str =>
      simp only [insertTuple] at h
      rcases hin : insertTuple t cols id vs'
          (if ci < cols.length - 1 then ci + 1 else ci) with e | ws'
      · rw [hin] at h
        simp [Except.map] at h
      · rw [hin] at h
        simp only [Except.map] at h
        have hws := Except.ok.inj h
        subst hws
        rcases List.mem_cons.mp hw with hw1 | hw2
        · exact ⟨ci, le_refl ci, hci, by simp, Or.inl (by rw [hw1])⟩
        rcases List.mem_cons.mp hw2 with hw1 | hw3
        · exact ⟨ci, le_refl ci, hci, by simp, Or.inr (by rw [hw1])⟩
        obtain ⟨m, hm1, hm2, hm3, hm4⟩ := ih _ ws' hin hciNext w hw3
        have hle : ci ≤ (if ci < cols.length - 1 then ci + 1 else ci) := by
          split <;> omega
        have hle2 : (if ci < cols.length - 1 then ci + 1 else ci) ≤ ci + 1 := by
          split <;> omega
        refine ⟨m, by omega, hm2, ?_, hm4⟩
        simp only [List.length_cons]
        omega
    | intC n =>
      simp only [insertTuple] at h
      rcases hin : insertTuple t cols id vs'
          (if ci < cols.length - 1 then ci + 1 else ci) with e | ws'
      · rw [hin] at h
        simp [Except.map] at h
      · rw [hin] at h
        simp only [Except.map] at h
        have hws := Except.ok.inj h
        subst hws
        rcases List.mem_cons.mp hw with hw1 | hw2
        · exact ⟨ci, le_refl ci, hci, by simp, Or.inl (by rw [hw1])⟩
        rcases List.mem_cons.mp hw2 with hw1 | hw3
        · exact ⟨ci, le_refl ci, hci, by simp, Or.inr (by rw [hw1])⟩
        obtain ⟨m, hm1, hm2, hm3, hm4⟩ := ih _ ws' hin hciNext w hw3
        have hle : ci ≤ (if ci < cols.length - 1 then ci + 1 else ci) := by
          split <;> omega
        have hle2 : (if ci < cols.length - 1 then ci + 1 else ci) ≤ ci + 1 := by
          split <;> omega
        refine ⟨m, by omega, hm2, ?_, hm4⟩
        simp only [List.length_cons]
        omega

theorem nodup_getD_inj (l : List String) (hnd : l.Nodup) (m k : Nat)
    (hm : m < l.length) (hk : k < l.length)
    (h : l.getD m "" = l.getD k "") : m = k := by
  rw [List.getD_eq_getElem?_getD, List.getElem?_eq_getElem hm,
    List.getD_eq_getElem?_getD, List.getElem?_eq_getElem hk] at h
  simp only [Option.getD_some] at h
  have h' : l.get ⟨m, hm⟩ = l.get ⟨k, hk⟩ := by simpa using h
  have := List.nodup_iff_injective_get.mp hnd h'
  exact congrArg Fin.val this

theorem insertTuples_single (t : String) (cols : List String) (id : String)
    (vs : List PgConst) (ws : List (FdbKey × Bytes))
    (h : insertTuple t cols id vs 0 = .ok ws) :
    insertTuples t cols [(vs, id)] = .ok ws := by
  simp [insertTuples, h, bind, Except.bind, pure, Except.pure]

/-- The result of a single-tuple `executeInsert` against a present table
whose tuple writes succeed. -/
theorem executeInsert_single (s : KVStore) (tname id : String)
    (values : List PgConst) (ws : List (FdbKey × Bytes))
    (hmk : (kvGet s (.tableMarker tname)).isSome)
    (hws : insertTuple tname (scannedTableDef s tname).ColumnNames id
      values 0 = .ok ws) :
    executeInsert s ⟨tname, [values]⟩ [id] = (applyWrites s ws, none) := by
  obtain ⟨val, hval⟩ := Option.isSome_iff_exists.mp hmk
  have htuples := insertTuples_single tname
    (scannedTableDef s tname).ColumnNames id values ws hws
  simp [executeInsert, getTableDefinition, hval, htuples]

/-- C4: for an INSERT tuple with more values than the table has columns,
values are assigned to columns by positional index with the column index
clamped at the last column: every surplus value's pair of writes targets
the last column, the surplus values collapse onto the last column's cell
(whose final bytes are those of the LAST value of the tuple), and the
INSERT still succeeds. -/
theorem C4_insert_surplus_clamps (s : KVStore) (tname id : String)
    (values : List PgConst) (cols : List String)
    (hcols : cols = (scannedTableDef s tname).ColumnNames)
    (hne : cols ≠ [])
    (hlen : cols.length < values.length)
    (hv : ∀ v ∈ values, v ≠ PgConst.other)
    (hmk : (kvGet s (.tableMarker tname)).isSome) :
    (executeInsert s ⟨tname, [values]⟩ [id]).2 = none ∧
    (∀ ws, insertTuple tname cols id values 0 = .ok ws →
      ∀ j, cols.length - 1 ≤ j → j < values.length →
        ws.getD (2*j) (.tableMarker "", "") =
          (.dataCell tname "c" (cols.getD (cols.length - 1) "") id,
            encodeConst (values.getD j .other)) ∧
        ws.getD (2*j+1) (.tableMarker "", "") =
          (.dataCell tname "r" id (cols.getD (cols.length - 1) ""),
            encodeConst (values.getD j .other))) ∧
    kvGet (executeInsert s ⟨tname, [values]⟩ [id]).1
        (.dataCell tname "r" id (cols.getD (cols.length - 1) "")) =
      some (encodeConst (values.getD (values.length - 1) .other)) := by
  obtain ⟨ws, hws⟩ := insertTuple_ok tname cols id values 0 hv
  have hLpos : 0 < cols.length := List.length_pos.mpr hne
  have hexec : executeInsert s ⟨tname, [values]⟩ [id] =
      (applyWrites s ws, none) :=
    executeInsert_single s tname id values ws hmk (hcols ▸ hws)
  obtain ⟨hlen2, hidx⟩ :=
    insertTuple_writes tname cols id values 0 ws hws (by omega)
  have hsurplus : ∀ ws', insertTuple tname cols id values 0 = .ok ws' →
      ∀ j, cols.length - 1 ≤ j → j < values.length →
        ws'.getD (2*j) (.tableMarker "", "") =
          (.dataCell tname "c" (cols.getD (cols.length - 1) "") id,
            encodeConst (values.getD j .other)) ∧
        ws'.getD (2*j+1) (.tableMarker "", "") =
          (.dataCell tname "r" id (cols.getD (cols.length - 1) ""),
            encodeConst (values.getD j .other)) := by
    intro ws' hws' j hj1 hj2
    have hww : ws = ws' := Except.ok.inj (hws ▸ hws')
    subst hww
    have hmin : min (0 + j) (cols.length - 1) = cols.length - 1 := by omega
    have := hidx j hj2
    rw [hmin] at this
    exact this
  refine ⟨by rw [hexec], hsurplus, ?_⟩
  have hn1 : values.length - 1 < values.length := by omega
  have hlast := (hidx (values.length - 1) hn1).2
  have harg : cols.length - 1 ≤ 0 + (values.length - 1) :=
    le_of_le_of_eq (Nat.sub_le_sub_right (Nat.le_of_lt hlen) 1)
      (Nat.zero_add _).symm
  have hmin : min (0 + (values.length - 1)) (cols.length - 1) =
      cols.length - 1 := Nat.min_eq_right harg
  rw [hmin] at hlast
  have hidxlast : ws.length - 1 = 2 * (values.length - 1) + 1 := by omega
  have hlast' : ws.getD (ws.length - 1) (.tableMarker "", "") =
      (.dataCell tname "r" id (cols.getD (cols.length - 1) ""),
        encodeConst (values.getD (values.length - 1) .other)) := by
    rw [hidxlast]
    exact hlast
  have hwsne : ws ≠ [] := by
    have hp : 0 < ws.length := by
      rw [hlen2]
      omega
    exact List.length_pos.mp hp
  rw [hexec]
  show kvGet (applyWrites s ws) _ = _
  rw [kvGet_applyWrites, writesLookup_last ws _ _ hlast' hwsne]
  rfl

/-- C4 witness: `insert into u values ('x','y','z')` on the two-column
table `u(a,b)`: the insert succeeds, pair 2 (the surplus value) targets
the last column `b`, and the final bytes of cell `(u, r, id1, b)` are
`"z"`. -/
theorem C4_insert_surplus_clamps_witness :
    (executeInsert kvTwoCols
        ⟨"u", [[.strC "x", .strC "y", .strC "z"]]⟩ ["id1"]).2 = none ∧
    kvGet (executeInsert kvTwoCols
        ⟨"u", [[.strC "x", .strC "y", .strC "z"]]⟩ ["id1"]).1
        (.dataCell "u" "r" "id1" "b") = some "z" := by
  have h := C4_insert_surplus_clamps kvTwoCols "u" "id1"
    [.strC "x", .strC "y", .strC "z"] ["a", "b"] (by decide) (by decide)
    (by decide) (by decide) (by decide)
  exact ⟨h.1, h.2.2⟩

/-- C10: for an INSERT tuple with fewer values than the table has columns,
the insert succeeds and writes cell pairs only for the first
`len(values)` columns in positional order; the remaining columns of that
(fresh) row receive no cells in either layout. -/
theorem C10_insert_short_tuple (s : KVStore) (tname id : String)
    (values : List PgConst) (cols : List String)
    (hcols : cols = (scannedTableDef s tname).ColumnNames)
    (hnodup : cols.Nodup)
    (hlen : values.length < cols.length)
    (hv : ∀ v ∈ values, v ≠ PgConst.other)
    (hmk : (kvGet s (.tableMarker tname)).isSome)
    (hfresh : ∀ col, kvGet s (.dataCell tname "r" id col) = none ∧
      kvGet s (.dataCell tname "c" col id) = none) :
    (executeInsert s ⟨tname, [values]⟩ [id]).2 = none ∧
    (∀ ws, insertTuple tname cols id values 0 = .ok ws →
      ws.length = 2 * values.length ∧
      ∀ j, j < values.length →
        ws.getD (2*j) (.tableMarker "", "") =
          (.dataCell tname "c" (cols.getD j "") id,
            encodeConst (values.getD j .other)) ∧
        ws.getD (2*j+1) (.tableMarker "", "") =
          (.dataCell tname "r" id (cols.getD j ""),
            encodeConst (values.getD j .other))) ∧
    (∀ k, values.length ≤ k → k < cols.length →
      kvGet (executeInsert s ⟨tname, [values]⟩ [id]).1
          (.dataCell tname "r" id (cols.getD k "")) = none ∧
      kvGet (executeInsert s ⟨tname, [values]⟩ [id]).1
          (.dataCell tname "c" (cols.getD k "") id) = none) := by
  obtain ⟨ws, hws⟩ := insertTuple_ok tname cols id values 0 hv
  have hexec : executeInsert s ⟨tname, [values]⟩ [id] =
      (applyWrites s ws, none) :=
    executeInsert_single s tname id values ws hmk (hcols ▸ hws)
  refine ⟨by rw [hexec], ?_, ?_⟩
  · intro ws' hws'
    have hww : ws = ws' := Except.ok.inj (hws ▸ hws')
    subst hww
    obtain ⟨hlen2, hidx⟩ :=
      insertTuple_writes tname cols id values 0 ws hws (by omega)
    refine ⟨hlen2, ?_⟩
    intro j hj
    have hmin : min (0 + j) (cols.length - 1) = j := by
      rw [Nat.min_eq_left (by omega)]
      omega
    have := hidx j hj
    rw [hmin] at this
    exact this
  · intro k hk1 hk2
    have hmem := insertTuple_mem tname cols id values 0 ws hws (by omega)
    constructor
    · rw [hexec]
      show kvGet (applyWrites s ws) _ = none
      have hcol : ∀ w ∈ ws, w.1 ≠ FdbKey.dataCell tname "r" id
          (cols.getD k "") := by
        intro w hw hc
        obtain ⟨m, _, hm2, hm3, hm4⟩ := hmem w hw
        have hmlt : m < values.length := by omega
        rcases hm4 with h4 | h4
        · rw [h4] at hc
          simp at hc
        · rw [h4] at hc
          simp only [FdbKey.dataCell.injEq] at hc
          have hmk' : m = k := nodup_getD_inj cols hnodup m k
            (by omega) hk2 hc.2.2.2
          omega
      rw [kvGet_applyWrites, writesLookup_eq_none ws _ hcol,
        (hfresh (cols.getD k "")).1]
      rfl
    · rw [hexec]
      show kvGet (applyWrites s ws) _ = none
      have hcol : ∀ w ∈ ws, w.1 ≠ FdbKey.dataCell tname "c"
          (cols.getD k "") id := by
        intro w hw hc
        obtain ⟨m, _, hm2, hm3, hm4⟩ := hmem w hw
        have hmlt : m < values.length := by omega
        rcases hm4 with h4 | h4
        · rw [h4] at hc
          simp only [FdbKey.dataCell.injEq] at hc
          have hmk' : m = k := nodup_getD_inj cols hnodup m k
            (by omega) hk2 hc.2.2.1
          omega
        · rw [h4] at hc
          simp at hc
      rw [kvGet_applyWrites, writesLookup_eq_none ws _ hcol,
        (hfresh (cols.getD k "")).2]
      rfl

/-- C10 witness: `insert into u values ('x')` on the two-column table
`u(a,b)` with fresh row id `id9`: the insert succeeds and column `b` of
row `id9` has no cell in either layout. -/
theorem C10_insert_short_tuple_witness :
    (executeInsert kvTwoCols ⟨"u", [[.strC "x"]]⟩ ["id9"]).2 = none ∧
    kvGet (executeInsert kvTwoCols ⟨"u", [[.strC "x"]]⟩ ["id9"]).1
        (.dataCell "u" "r" "id9" "b") = none ∧
    kvGet (executeInsert kvTwoCols ⟨"u", [[.strC "x"]]⟩ ["id9"]).1
        (.dataCell "u" "c" "b" "id9") = none := by
  have h := C10_insert_short_tuple kvTwoCols "u" "id9" [.strC "x"]
    ["a", "b"] (by decide) (by decide) (by decide) (by decide) (by decide)
    (fun col => ⟨rfl, rfl⟩)
  exact ⟨h.1, (h.2.2 1 (by decide) (by decide)).1,
    (h.2.2 1 (by decide) (by decide)).2⟩
